import Mathlib

/-!
# Verification of the dgit core against its specification

This file embeds the data model and the operations of the dgit core
(reference store, index→tree writer, working-tree differ, commit builder)
in Lean 4 and proves or refutes the frozen claims about them.

Machine words are `Nat` with explicit reduction modulo `2^32`; byte
strings are `List Nat` (each element a byte value); hashes are the
160-bit SHA-1 value as a single `Nat`.
-/

set_option maxRecDepth 100000

namespace DGit

/-! ## SHA-1 primitive

The object identity of the system is SHA-1 over `"<kind> <len>\0<payload>"`
(spec §3 "Hash", §4.1).  The hash is computed here from scratch on byte
lists so that concrete tree hashes can be evaluated inside Lean.
-/

/-- Reduce modulo `2^32` (32-bit word arithmetic). -/
def m32 (x : Nat) : Nat := x % 4294967296

/-- Rotate a 32-bit word left by `n`. -/
def rotl (n x : Nat) : Nat := m32 ((x <<< n) ||| (x >>> (32 - n)))

/-- Bitwise complement of a 32-bit word (`x < 2^32`). -/
def comp32 (x : Nat) : Nat := 4294967295 - x

/-- The SHA-1 round function for round `t`. -/
def sha1f (t b c d : Nat) : Nat :=
  if t < 20 then (b &&& c) ||| (comp32 b &&& d)
  else if t < 40 then b ^^^ c ^^^ d
  else if t < 60 then (b &&& c) ||| (b &&& d) ||| (c &&& d)
  else b ^^^ c ^^^ d

/-- The SHA-1 round constant for round `t`. -/
def sha1k (t : Nat) : Nat :=
  if t < 20 then 1518500249
  else if t < 40 then 1859775393
  else if t < 60 then 2400959708
  else 3395469782

/-- Extend the message schedule `k` more words.  `ws` holds the words
produced so far, most recent first. -/
def sha1sched : Nat → List Nat → List Nat
  | 0, ws => ws
  | k+1, ws =>
    let w := rotl 1 ((ws.getD 2 0) ^^^ (ws.getD 7 0) ^^^ (ws.getD 13 0) ^^^ (ws.getD 15 0))
    sha1sched k (w :: ws)

/-- One SHA-1 compression round: state `(a,b,c,d,e)`, input `(t, w[t])`. -/
def sha1round (st : Nat × Nat × Nat × Nat × Nat) (tw : Nat × Nat) :
    Nat × Nat × Nat × Nat × Nat :=
  let (a, b, c, d, e) := st
  let (t, w) := tw
  let tmp := m32 (rotl 5 a + sha1f t b c d + e + sha1k t + w)
  (tmp, a, rotl 30 b, c, d)

/-- Compress one 16-word block into the running hash state. -/
def sha1block (h : Nat × Nat × Nat × Nat × Nat) (ws16 : List Nat) :
    Nat × Nat × Nat × Nat × Nat :=
  let wsAll := (sha1sched 64 ws16.reverse).reverse
  let (a, b, c, d, e) := ((List.range 80).zip wsAll).foldl sha1round h
  let (h0, h1, h2, h3, h4) := h
  (m32 (h0 + a), m32 (h1 + b), m32 (h2 + c), m32 (h3 + d), m32 (h4 + e))

/-- Split a word list into 16-word blocks (dropping any ragged tail;
after padding the length is always a multiple of 16). -/
def words16 : List Nat → List (List Nat)
  | w0::w1::w2::w3::w4::w5::w6::w7::w8::w9::w10::w11::w12::w13::w14::w15::r =>
    [w0,w1,w2,w3,w4,w5,w6,w7,w8,w9,w10,w11,w12,w13,w14,w15] :: words16 r
  | _ => []

/-- Pack bytes into big-endian 32-bit words. -/
def bytesToWords : List Nat → List Nat
  | a::b::c::d::r => (((a*256+b)*256+c)*256+d) :: bytesToWords r
  | _ => []

/-- `n` as `k` big-endian bytes. -/
def natBytesBE : Nat → Nat → List Nat
  | 0, _ => []
  | k+1, n => ((n >>> (8*k)) &&& 255) :: natBytesBE k n

/-- SHA-1 padding: `0x80`, zeros, then the 64-bit big-endian bit length. -/
def sha1pad (msg : List Nat) : List Nat :=
  msg ++ 128 :: List.replicate ((119 - msg.length % 64) % 64) 0
      ++ natBytesBE 8 (8 * msg.length)

/-- SHA-1 of a byte list, as a 160-bit natural number. -/
def sha1Nat (msg : List Nat) : Nat :=
  let (h0, h1, h2, h3, h4) :=
    (words16 (bytesToWords (sha1pad msg))).foldl sha1block
      (1732584193, 4023233417, 2562383102, 271733878, 3285377520)
  (((h0 * 4294967296 + h1) * 4294967296 + h2) * 4294967296 + h3) * 4294967296 + h4

/-- Digits of `n` in base `base` as ASCII bytes (fuel-bounded). -/
def natBaseAux (base : Nat) : Nat → Nat → List Nat → List Nat
  | 0, _, acc => acc
  | f+1, n, acc =>
    if n < base then (48 + n) :: acc
    else natBaseAux base f (n / base) ((48 + n % base) :: acc)

/-- `n` in decimal ASCII. -/
def natDecimal (n : Nat) : List Nat := natBaseAux 10 30 n []

/-- `n` in octal ASCII (the on-disk tree mode encoding). -/
def natOctal (n : Nat) : List Nat := natBaseAux 8 30 n []

/-- ASCII bytes of a string (the sources only use ASCII names). -/
def strBytes (s : String) : List Nat := s.data.map Char.toNat

/-- Hash of a typed object: SHA-1 of `"<kind> <len>\0<payload>"`
(spec §4.1 `hash_object`). -/
def hashObj (kind payload : List Nat) : Nat :=
  sha1Nat (kind ++ 32 :: natDecimal payload.length ++ 0 :: payload)

/-- Hash of a blob object (the collaborator `HashReader("blob", ·)`). -/
def hashBlob (payload : List Nat) : Nat := hashObj (strBytes "blob") payload

/-! ## File modes and index entries

`FileMode` is the on-disk mode word (spec §2.3, §3); the named values are
the five enumerated modes, with `0` the Go zero value used by the empty
`TreeEntry{}`. -/

/-- Regular file mode `0o100644`. -/
def ModeBlob : Nat := 33188

/-- Executable file mode `0o100755`. -/
def ModeExec : Nat := 33261

/-- Symbolic link mode `0o120000`. -/
def ModeSymlink : Nat := 40960

/-- Tree (directory) mode `0o40000`. -/
def ModeTree : Nat := 16384

/-- An index entry: path (bytes of the slash-separated `IndexPath`),
mode, file size and stored hash, mirroring `IndexEntry` /
`FixedIndexEntry` of the source. -/
structure IndexEntry where
  pathName : List Nat
  mode : Nat
  fsize : Nat
  sha1 : Nat
  deriving Repr, DecidableEq

/-! ## Tree writer

The tree writer (`writeIndexEntries`) itself is not among the given
source files — only its test `TestWriteIndex` is — so it is modelled
from the spec (§4.6) below. -/

/-- First path component of a byte path: returns the component and
`some rest` when a `/` (byte 47) follows, `none` when the component is
the whole path. -/
def splitPath : List Nat → List Nat × Option (List Nat)
  | [] => ([], none)
  | b :: rest =>
    if b = 47 then ([], some rest)
    else
      let (c, r) := splitPath rest
      (b :: c, r)

/-- Collect the maximal run of leading entries lying in subdirectory
`name`, stripping that component from their paths; returns them together
with the remaining entries. -/
def collectDir (name : List Nat) : List IndexEntry → List IndexEntry × List IndexEntry
  | [] => ([], [])
  | e :: rest =>
    match splitPath e.pathName with
    | (c, some r) =>
      if c = name then
        let (ins, outs) := collectDir name rest
        ({ e with pathName := r } :: ins, outs)
      else ([], e :: rest)
    | (_, none) => ([], e :: rest)

/-- One entry of a single tree object: name, whether it is a subtree,
mode and hash. -/
structure TreeItem where
  name : List Nat
  sub : Bool
  mode : Nat
  hash : Nat
  deriving Repr, DecidableEq

/-- Modelled from the spec (§4.6 sort order): the comparison key treats
every subtree name as if a trailing `/` were appended. -/
def sortKey (it : TreeItem) : List Nat :=
  it.name ++ (if it.sub then [47] else [])

/-- Byte-lexicographic strict order on byte lists. -/
def bytesLt : List Nat → List Nat → Bool
  | [], [] => false
  | [], _ :: _ => true
  | _ :: _, [] => false
  | a :: as, b :: bs => if a < b then true else if b < a then false else bytesLt as bs

/-- Insertion into a list sorted by `sortKey` under `bytesLt`. -/
def insertItem (x : TreeItem) : List TreeItem → List TreeItem
  | [] => [x]
  | y :: ys => if bytesLt (sortKey x) (sortKey y) then x :: y :: ys else y :: insertItem x ys

/-- Insertion sort of tree items by the §4.6 comparison. -/
def sortItems : List TreeItem → List TreeItem
  | [] => []
  | x :: xs => insertItem x (sortItems xs)

/-- Modelled from the spec (§4.6 recursion, steps 1–3): partition the
sorted entries by first path component; a final component gives a file
item, a nonfinal one gives a subtree item whose hash is produced by the
tree writer `wt` applied to the collected sub-entries.  `fuel` bounds
the traversal. -/
def buildItems (wt : List IndexEntry → Nat) : Nat → List IndexEntry → List TreeItem
  | 0, _ => []
  | _+1, [] => []
  | fuel+1, e :: rest =>
    match splitPath e.pathName with
    | (c, none) => ⟨c, false, e.mode, e.sha1⟩ :: buildItems wt fuel rest
    | (c, some r) =>
      let (ins, outs) := collectDir c rest
      ⟨c, true, ModeTree, wt ({ e with pathName := r } :: ins)⟩ :: buildItems wt fuel outs

/-- Serialization of one tree entry:
`"<mode-octal> <name>\0<20-byte-hash>"` (spec §4.6, §6). -/
def treeItemBytes (it : TreeItem) : List Nat :=
  natOctal it.mode ++ 32 :: it.name ++ 0 :: natBytesBE 20 it.hash

/-- Modelled from the spec (§4.6 steps 4–5): build the items of one
tree level, sort them, concatenate their serializations and hash the
result as a `tree` object. -/
def writeTreeAux : Nat → List IndexEntry → Nat
  | 0, _ => 0
  | fuel+1, entries =>
    let items := sortItems (buildItems (writeTreeAux fuel) fuel entries)
    hashObj (strBytes "tree") (items.map treeItemBytes).flatten

/-- Modelled from the spec: the tree writer `writeIndexEntries` with
empty starting point, absent from the given sources (only its test is
present).  The fuel is an over-approximation of the recursion depth and
width needed for any input. -/
def writeIndexEntries (entries : List IndexEntry) : Nat :=
  writeTreeAux (entries.foldl (fun a e => a + e.pathName.length + 1) 1) entries

/-! Concrete blobs and index entries used by the test vectors. -/

/-- The blob `"bar\n"`. -/
def barNL : List Nat := strBytes "bar\n"

/-- The blob `"baz\n"`. -/
def bazNL : List Nat := strBytes "baz\n"

/-- The blob `"foo\n"`. -/
def fooNL : List Nat := strBytes "foo\n"

/-- The three-entry index of the "file sandwiched between two subtrees"
test vector: `bar/bar`, `baz`, `foo/foo`, all regular blobs. -/
def sandwichIndex : List IndexEntry :=
  [ ⟨strBytes "bar/bar", ModeBlob, 4, hashBlob barNL⟩,
    ⟨strBytes "baz", ModeBlob, 4, hashBlob bazNL⟩,
    ⟨strBytes "foo/foo", ModeBlob, 4, hashBlob fooNL⟩ ]

/-! ## Working-tree differ (`DiffFiles`)

Embedding of `DiffFiles` from the source.  The filesystem, `Lstat`,
`CompareStat` and `HashFile` collaborators are abstracted into a view of
what the filesystem answers for one path. -/

/-- The result of `Lstat` on a path, as consumed by `DiffFiles`. -/
structure StatInfo where
  isDir : Bool
  isRegular : Bool
  execBit : Bool
  size : Nat
  deriving Repr, DecidableEq

/-- What the filesystem and the stat/hash collaborators answer for one
index path: whether `FilePath` succeeds, whether the file exists, the
`Lstat` outcome (`none` = error), whether `CompareStat` reports a match
(`true` = all stat metadata agrees), and the `HashFile` outcome
(`none` = hashing failed). -/
structure FsView where
  pathOk : Bool
  pathExists : Bool
  lstat : Option StatInfo
  statMatches : Bool
  hashResult : Option Nat
  deriving Repr, DecidableEq

/-- A `(sha1, mode)` pair, as in the source's `TreeEntry`. -/
structure TreeEntry where
  sha1 : Nat
  fileMode : Nat
  deriving Repr, DecidableEq

/-- The Go zero value `TreeEntry{}`. -/
def emptyTreeEntry : TreeEntry := ⟨0, 0⟩

/-- One raw diff line, as in the source's
`HashDiff{PathName, idxtree, fs, idx.Fsize, size}`. -/
structure HashDiff where
  pathName : List Nat
  src : TreeEntry
  dst : TreeEntry
  srcSize : Nat
  dstSize : Nat
  deriving Repr, DecidableEq

/-- The fs-side mode classification of the `DiffFiles` switch: a
non-regular (non-directory) file is reported as a symlink, a regular
file with the owner-execute bit as executable, anything else as a plain
blob. -/
def classifyMode (stat : StatInfo) : Nat :=
  if !stat.isRegular then ModeSymlink
  else if stat.execBit then ModeExec
  else ModeBlob

/-- The per-entry body of the `DiffFiles` loop, line by line from the
source: missing file / failed lstat / directory emit a deleted-style
diff; otherwise the fs mode is classified, a `CompareStat` mismatch
emits a diff immediately, and only on a `CompareStat` match is the file
rehashed, emitting a diff when hashing fails or the hash differs from
the stored `sha1`. -/
def diffOne (fs : List Nat → FsView) (idx : IndexEntry) : Option HashDiff :=
  let v := fs idx.pathName
  let idxtree : TreeEntry := ⟨idx.sha1, idx.mode⟩
  if !v.pathOk || !v.pathExists then
    some ⟨idx.pathName, idxtree, emptyTreeEntry, idx.fsize, 0⟩
  else
    match v.lstat with
    | none => some ⟨idx.pathName, idxtree, emptyTreeEntry, idx.fsize, 0⟩
    | some stat =>
      if stat.isDir then
        some ⟨idx.pathName, idxtree, emptyTreeEntry, idx.fsize, 0⟩
      else
        let fsEntry : TreeEntry := ⟨0, classifyMode stat⟩
        if !v.statMatches then
          some ⟨idx.pathName, idxtree, fsEntry, idx.fsize, stat.size⟩
        else
          match v.hashResult with
          | none => some ⟨idx.pathName, idxtree, fsEntry, idx.fsize, stat.size⟩
          | some h =>
            if h ≠ idx.sha1 then
              some ⟨idx.pathName, idxtree, fsEntry, idx.fsize, stat.size⟩
            else none

/-- Insertion into a diff list sorted by path (`sort.Sort(ByName(val))`). -/
def insertDiff (x : HashDiff) : List HashDiff → List HashDiff
  | [] => [x]
  | y :: ys => if bytesLt x.pathName y.pathName then x :: y :: ys else y :: insertDiff x ys

/-- Sort diffs by path, byte-lexicographically. -/
def sortDiffs : List HashDiff → List HashDiff
  | [] => []
  | x :: xs => insertDiff x (sortDiffs xs)

/-- `DiffFiles` from the source: `LsFiles` (whose outcome is the
`lsResult` argument) lists the candidate index entries; a listing
failure is returned as-is; otherwise each entry contributes at most one
diff via `diffOne` and the result is sorted by path. -/
def DiffFiles (fs : List Nat → FsView) (lsResult : Except String (List IndexEntry)) :
    Except String (List HashDiff) :=
  match lsResult with
  | .error e => .error e
  | .ok indexentries => .ok (sortDiffs (indexentries.filterMap (diffOne fs)))

/-- A filesystem view for the C3 counterexample: the file exists as a
regular file, all stat metadata agrees with the index entry, but the
content rehashes to `99`, not the stored `7`. -/
def c3cexFs : List Nat → FsView :=
  fun _ => ⟨true, true, some ⟨false, true, false, 4⟩, true, some 99⟩

/-- The index entry `foo`, mode blob, size 4, stored sha1 `7`. -/
def c3cexEntry : IndexEntry := ⟨strBytes "foo", ModeBlob, 4, 7⟩

/-- A filesystem view whose rehash agrees with the stored sha1 `7`. -/
def c3okFs : List Nat → FsView :=
  fun _ => ⟨true, true, some ⟨false, true, false, 4⟩, true, some 7⟩

/-- A filesystem view for the C4 counterexample: the file exists as a
regular file, the stat metadata does NOT agree, but its content hashes
back to exactly the stored sha1 `7`. -/
def c4cexFs : List Nat → FsView :=
  fun _ => ⟨true, true, some ⟨false, true, false, 4⟩, false, some 7⟩

/-- The index entry `foo`, mode blob, size 4, stored sha1 `7`. -/
def c4cexEntry : IndexEntry := ⟨strBytes "foo", ModeBlob, 4, 7⟩

/-- A filesystem view where every path is absent. -/
def c5Fs : List Nat → FsView := fun _ => ⟨true, false, none, false, none⟩

/-- The index entry `foo`, mode blob, size 4, stored sha1 `7`. -/
def c5Entry : IndexEntry := ⟨strBytes "foo", ModeBlob, 4, 7⟩

/-! ## Reference store: `Ref` and pattern matching -/

/-- A ref: full name (starting with `refs/`, or `HEAD`) and the hash it
points at, as in the source's `Ref` struct. -/
structure Ref where
  name : List Char
  value : Nat
  deriving Repr, DecidableEq

/-- `Ref.Matches` from the source: exact name equality, or the name
ends with `"/" + pattern` (`strings.HasSuffix`). -/
def Ref.Matches (r : Ref) (p : List Char) : Bool :=
  r.name == p || List.isSuffixOf ('/' :: p) r.name

/-! ## Reference store: `RefSpec` normalization -/

/-- A `RefSpec` is a Go string (modelled as its characters) naming a
reference under the gitdir. -/
abbrev RefSpec := List Char

/-- The NUL character. -/
def nulChar : Char := Char.ofNat 0

/-- `strings.TrimSuffix(s, "\000")`: remove one trailing NUL if
present. -/
def trimSuffixNul (s : List Char) : List Char :=
  if s.getLast? = some nulChar then s.dropLast else s

/-- Whitespace as trimmed by `strings.TrimSpace` (the Latin-1 range of
`unicode.IsSpace`; ref names in the sources are ASCII). -/
def isSpaceChar (c : Char) : Bool :=
  c = ' ' || c = '\t' || c = '\n' || c = Char.ofNat 11 || c = Char.ofNat 12
    || c = '\r' || c = Char.ofNat 0x85 || c = Char.ofNat 0xA0

/-- `strings.TrimSpace`: drop leading and trailing whitespace (removing
the trailing run first; the two orders agree). -/
def trimSpace (s : List Char) : List Char :=
  ((s.reverse.dropWhile isSpaceChar).reverse).dropWhile isSpaceChar

/-- `RefSpec.String` from the source: empty for the empty refspec, else
one trailing NUL removed and whitespace trimmed. -/
def RefSpec.toStr (r : RefSpec) : List Char :=
  if r.length < 1 then [] else trimSpace (trimSuffixNul r)

/-- `RefSpec.File` from the source: the file under the gitdir named by
the normalized string of the refspec. -/
def RefSpec.FileOf (gitdir : List Char) (r : RefSpec) : List Char :=
  gitdir ++ '/' :: r.toStr

/-! ## Reference store: `ShowRef`

Embedding of `ShowRef` from the source.  The filesystem and the
collaborators `parseRef`, `GetHeadCommit`, `filepath.Walk`,
`ioutil.ReadDir` and the tag-peeling of `getDeref` are abstracted into
an environment recording what each answers. -/

/-- Options of `ShowRef`, as in the source's `ShowRefOptions`. -/
structure ShowRefOptions where
  IncludeHead : Bool
  Tags : Bool
  Heads : Bool
  Dereference : Bool
  Sha1Only : Bool
  Verify : Bool
  Abbrev : Nat
  Quiet : Bool
  ExcludeExisting : List Char
  deriving Repr, DecidableEq

/-- What the repository answers: whether a ref file exists under the
gitdir, what `parseRef` yields for a refname, what `GetHeadCommit`
yields, the refnames found walking `refs/` (already relative to the
gitdir), the entries of `refs/heads` and `refs/tags`, and what the
tag-peeling step of `getDeref` yields for a ref. -/
structure RefEnv where
  fileExists : List Char → Bool
  parseRef : List Char → Except String Ref
  headCommit : Except String Nat
  walkFiles : List (List Char)
  headsDir : Except String (List (List Char))
  tagsDir : Except String (List (List Char))
  derefTag : Ref → Except String (Option Ref)

/-- `getDeref` from the source: nothing unless the `Dereference` option
(threaded as `deref`) is set, else the environment's tag peeling. -/
def getDeref (env : RefEnv) (deref : Bool) (r : Ref) : Except String (Option Ref) :=
  if !deref then .ok none else env.derefTag r

/-- Append a ref and (when present) its dereference to the accumulated
list, as each enumeration branch of the source does. -/
def appendRef (env : RefEnv) (deref : Bool) (vals : List Ref) (r : Ref) :
    Except String (List Ref) :=
  match getDeref env deref r with
  | .error e => .error e
  | .ok none => .ok (vals ++ [r])
  | .ok (some d) => .ok (vals ++ [r, d])

/-- Process one refname of an enumeration: parse it, then append it if
the pattern list is empty or some pattern matches. -/
def enumOne (env : RefEnv) (deref : Bool) (patterns : List (List Char))
    (vals : List Ref) (refname : List Char) : Except String (List Ref) :=
  match env.parseRef refname with
  | .error e => .error e
  | .ok ref =>
    if patterns.isEmpty then appendRef env deref vals ref
    else if patterns.any (fun p => ref.Matches p) then appendRef env deref vals ref
    else .ok vals

/-- Enumerate a list of refnames, accumulating into `vals`; the first
error aborts, as in the source. -/
def enumAll (env : RefEnv) (deref : Bool) (patterns : List (List Char)) :
    List (List Char) → List Ref → Except String (List Ref)
  | [], vals => .ok vals
  | f :: fs, vals =>
    match enumOne env deref patterns vals f with
    | .error e => .error e
    | .ok vals' => enumAll env deref patterns fs vals'

/-- The `Verify` branch of `ShowRef`: every pattern must exactly name
an existing ref file; a missing one is a fatal error, then the ref is
parsed and appended with its optional dereference. -/
def verifyRefs (env : RefEnv) (deref : Bool) :
    List (List Char) → List Ref → Except String (List Ref)
  | [], vals => .ok vals
  | p :: ps, vals =>
    if !env.fileExists p then
      .error ("fatal: '" ++ String.mk p ++ "' - not a valid ref")
    else
      match env.parseRef p with
      | .error e => .error e
      | .ok r =>
        match getDeref env deref r with
        | .error e => .error e
        | .ok none => verifyRefs env deref ps (vals ++ [r])
        | .ok (some d) => verifyRefs env deref ps (vals ++ [r, d])

/-- Full refnames of the entries of the `refs/heads` directory. -/
def headsRefNames (names : List (List Char)) : List (List Char) :=
  names.map (fun n => "refs/heads/".data ++ n)

/-- Full refnames of the entries of the `refs/tags` directory. -/
def tagsRefNames (names : List (List Char)) : List (List Char) :=
  names.map (fun n => "refs/tags/".data ++ n)

/-- The enumeration part of `ShowRef` after the optional HEAD entry:
walk all of `refs/` when neither `Heads` nor `Tags` is set, else the
`refs/heads` and `refs/tags` directories as requested. -/
def showRefEnum (env : RefEnv) (opts : ShowRefOptions) (patterns : List (List Char))
    (vals : List Ref) : Except String (List Ref) :=
  if !opts.Heads && !opts.Tags then
    enumAll env opts.Dereference patterns env.walkFiles vals
  else
    let r1 : Except String (List Ref) :=
      if opts.Heads then
        match env.headsDir with
        | .error e => .error e
        | .ok names =>
          enumAll env opts.Dereference patterns (headsRefNames names) vals
      else .ok vals
    match r1 with
    | .error e => .error e
    | .ok vals' =>
      if opts.Tags then
        match env.tagsDir with
        | .error e => .error e
        | .ok names =>
          enumAll env opts.Dereference patterns (tagsRefNames names) vals'
      else .ok vals'

/-- `ShowRef` from the source: the `Verify` branch checks each pattern
against an existing ref file; otherwise HEAD is prepended when
`IncludeHead` is set and `GetHeadCommit` succeeds (a HEAD that does not
resolve is silently skipped), and the refs are enumerated. -/
def ShowRef (env : RefEnv) (opts : ShowRefOptions) (patterns : List (List Char)) :
    Except String (List Ref) :=
  if opts.Verify then verifyRefs env opts.Dereference patterns []
  else
    let vals : List Ref :=
      if opts.IncludeHead then
        match env.headCommit with
        | .ok h => [⟨"HEAD".data, h⟩]
        | .error _ => []
      else []
    showRefEnum env opts patterns vals

/-- An environment with no ref files at all, used by the C7 witness. -/
def c7Env : RefEnv :=
  ⟨fun _ => false, fun _ => .error "unused", .error "no head", [], .ok [], .ok [],
    fun _ => .ok none⟩

/-- `show-ref --verify` options. -/
def c7Opts : ShowRefOptions := ⟨false, false, false, false, false, true, 0, false, []⟩

/-- An environment whose HEAD resolves to the commit `9`, used by the
C8 witness. -/
def c8Env : RefEnv :=
  ⟨fun _ => true, fun n => .ok ⟨n, 5⟩, .ok 9, [['r']], .ok [], .ok [],
    fun _ => .ok none⟩

/-- An environment whose symbolic HEAD points nowhere (`GetHeadCommit`
fails), used by the C8 witness. -/
def c8EnvBad : RefEnv :=
  ⟨fun _ => true, fun n => .ok ⟨n, 5⟩, .error "dangling HEAD", [['r']], .ok [], .ok [],
    fun _ => .ok none⟩

/-- `show-ref --head` options. -/
def c8Opts : ShowRefOptions := ⟨true, false, false, false, false, false, 0, false, []⟩

/-! ## Commit builder

Embedding of `Commit` from the source.  `GetHeadID`, `WriteTree` and
`UpdateRef` are collaborators; the argument list handed to the
`CommitTree` collaborator is built here exactly as in the source, and
the parents a commit-tree invocation records are modelled from the
spec. -/

/-- The message-gathering loop of `Commit`: every `-m` or `-F` argument
is appended together with the argument right after it; a trailing `-m`
or `-F` with nothing after it makes the Go slice expression
`args[idx:idx+2]` panic, modelled as `none`. -/
def gatherMsgs : List String → Option (List String)
  | [] => some []
  | v :: rest =>
    if v = "-m" ∨ v = "-F" then
      match rest with
      | [] => none
      | w :: _ => (gatherMsgs rest).map (fun ms => v :: w :: ms)
    else gatherMsgs rest

/-- The argument list `Commit` passes to `CommitTree`: `-p <head>` when
`GetHeadID` succeeded, then the gathered message arguments, then the
tree hash from `WriteTree`. -/
def commitTreeArgsOf (headId : Except String String) (args : List String)
    (treeSha : String) : Option (List String) :=
  let pArgs : List String := match headId with | .ok p => ["-p", p] | .error _ => []
  (gatherMsgs args).map (fun ms => pArgs ++ ms ++ [treeSha])

/-- Modelled from the spec: the parents the `CommitTree` collaborator
(§4.7 step 4, not among the given sources) records from its argument
list — one parent per `-p <id>` pair, with `-m <msg>` and `-F <file>`
pairs consumed as message arguments and any other argument consumed
alone (the tree). -/
def parentsOf : List String → List String
  | [] => []
  | [_] => []
  | x :: v :: rest =>
    if x = "-p" then v :: parentsOf rest
    else if x = "-m" ∨ x = "-F" then parentsOf rest
    else parentsOf (v :: rest)

/-- The parents recorded from the head-resolution outcome: the claim's
"sole parent when HEAD resolves, none otherwise". -/
def headParents : Except String String → List String
  | .ok p => [p]
  | .error _ => []

/-! ## Claim theorems: tree writer -/

/-- C1: the tree writer on the three-entry index
`[(100644, bar/bar, blob "bar\n"), (100644, baz, blob "baz\n"),
(100644, foo/foo, blob "foo\n")]` — a file sandwiched between two
subtrees — returns exactly the tree hash
`18a6e5a95bb59e96dba722025de6abc692661bb6`. -/
theorem writeIndexEntries_sandwich :
    writeIndexEntries sandwichIndex
      = 0x18a6e5a95bb59e96dba722025de6abc692661bb6 := by rfl

/-- C2: the tree writer on the empty index returns exactly the fixed
empty-tree hash `4b825dc642cb6eb9a060e54bf8d69288fbee4904`, the SHA-1
of the bare header `"tree 0\0"`. -/
theorem writeIndexEntries_empty :
    writeIndexEntries [] = 0x4b825dc642cb6eb9a060e54bf8d69288fbee4904
      ∧ writeIndexEntries [] = sha1Nat (strBytes "tree 0" ++ [0]) := by
  constructor <;> rfl

/-! ## Claim theorems: working-tree differ -/

/-- Membership is invariant under `insertDiff`. -/
theorem mem_insertDiff (x y : HashDiff) (l : List HashDiff) :
    y ∈ insertDiff x l ↔ y = x ∨ y ∈ l := by
  induction l with
  | nil => simp [insertDiff]
  | cons z zs ih =>
    by_cases h : bytesLt x.pathName z.pathName = true
    · simp [insertDiff, h]
    · simp [insertDiff, h, ih]
      tauto

/-- Membership is invariant under `sortDiffs`. -/
theorem mem_sortDiffs (y : HashDiff) (l : List HashDiff) :
    y ∈ sortDiffs l ↔ y ∈ l := by
  induction l with
  | nil => simp [sortDiffs]
  | cons z zs ih => simp [sortDiffs, mem_insertDiff, ih]

/-- C3 counterexample: contrary to the claim, an entry whose full stat
metadata agrees with the fixed index entry is not skipped — `DiffFiles`
rehashes it anyway, and when the recomputed hash differs from the
stored sha1 a diff IS emitted for the path. -/
theorem diffOne_statMatch_cex : ¬ (diffOne c3cexFs c3cexEntry = none) := by decide

/-- C3 (amended): for an entry whose on-disk file exists as a regular
file or symlink and whose stat metadata agrees with the fixed index
entry, `DiffFiles` does not skip the entry but falls through to
rehashing: no diff is emitted for the path precisely when the file
rehashes successfully to the stored sha1. -/
theorem diffOne_statMatch (fs : List Nat → FsView) (idx : IndexEntry) (stat : StatInfo)
    (hok : (fs idx.pathName).pathOk = true)
    (hex : (fs idx.pathName).pathExists = true)
    (hls : (fs idx.pathName).lstat = some stat)
    (hdir : stat.isDir = false)
    (hsm : (fs idx.pathName).statMatches = true) :
    (diffOne fs idx = none ↔ (fs idx.pathName).hashResult = some idx.sha1) := by
  cases hh : (fs idx.pathName).hashResult with
  | none => simp [diffOne, hok, hex, hls, hdir, hsm, hh]
  | some h =>
    by_cases he : h = idx.sha1 <;>
      simp [diffOne, hok, hex, hls, hdir, hsm, hh, he]

/-- Witness for the amended C3 at a concrete input: with matching stat
metadata and content hashing back to the stored sha1, no diff is
emitted. -/
theorem diffOne_statMatch_witness : diffOne c3okFs c3cexEntry = none :=
  (diffOne_statMatch c3okFs c3cexEntry ⟨false, true, false, 4⟩
    rfl rfl rfl rfl rfl).mpr rfl

/-- C4 counterexample: contrary to the claim, a stat mismatch with
matching content DOES produce a diff — `DiffFiles` emits on a
`CompareStat` mismatch without consulting the file's content at all. -/
theorem diffOne_statMismatch_cex : ¬ (diffOne c4cexFs c4cexEntry = none) := by decide

/-- C4 (amended): for an entry whose on-disk file exists as a regular
file or symlink but whose stat metadata disagrees with the fixed index
entry, `DiffFiles` emits a diff for the path unconditionally and
without rehashing — the emitted diff has the index sha1/mode on the
index side, the classified fs mode (with empty sha) on the fs side and
the lstat size as fs size, and does not depend on the hash outcome. -/
theorem diffOne_statMismatch (fs : List Nat → FsView) (idx : IndexEntry) (stat : StatInfo)
    (hok : (fs idx.pathName).pathOk = true)
    (hex : (fs idx.pathName).pathExists = true)
    (hls : (fs idx.pathName).lstat = some stat)
    (hdir : stat.isDir = false)
    (hsm : (fs idx.pathName).statMatches = false) :
    diffOne fs idx
      = some ⟨idx.pathName, ⟨idx.sha1, idx.mode⟩, ⟨0, classifyMode stat⟩,
          idx.fsize, stat.size⟩ := by
  simp [diffOne, hok, hex, hls, hdir, hsm]

/-- Witness for the amended C4 at a concrete input: the stat-mismatch
diff is emitted even though the content hash matches the index. -/
theorem diffOne_statMismatch_witness :
    diffOne c4cexFs c4cexEntry
      = some ⟨strBytes "foo", ⟨7, ModeBlob⟩, ⟨0, ModeBlob⟩, 4, 4⟩ :=
  diffOne_statMismatch c4cexFs c4cexEntry ⟨false, true, false, 4⟩ rfl rfl rfl rfl rfl

/-- C5: an entry whose path is absent on disk, whose lstat fails, or
which resolves to a directory yields exactly the deleted-style diff
(empty fs `TreeEntry`, fs size 0); `DiffFiles` keeps processing the
other entries and returns `ok` whenever listing the index succeeded —
only a listing failure is returned as an error. -/
theorem diffFiles_deleted (fs : List Nat → FsView) (idx : IndexEntry)
    (h : (fs idx.pathName).pathOk = false ∨ (fs idx.pathName).pathExists = false
       ∨ (fs idx.pathName).lstat = none
       ∨ (∃ stat, (fs idx.pathName).lstat = some stat ∧ stat.isDir = true)) :
    diffOne fs idx
        = some ⟨idx.pathName, ⟨idx.sha1, idx.mode⟩, emptyTreeEntry, idx.fsize, 0⟩
      ∧ (∀ entries,
          DiffFiles fs (.ok entries)
            = .ok (sortDiffs (entries.filterMap (diffOne fs)))
          ∧ (idx ∈ entries →
              ∃ ds, DiffFiles fs (.ok entries) = .ok ds
                ∧ (⟨idx.pathName, ⟨idx.sha1, idx.mode⟩, emptyTreeEntry,
                      idx.fsize, 0⟩ : HashDiff) ∈ ds))
      ∧ (∀ e, DiffFiles fs (.error e) = .error e) := by
  have hone : diffOne fs idx
      = some ⟨idx.pathName, ⟨idx.sha1, idx.mode⟩, emptyTreeEntry, idx.fsize, 0⟩ := by
    rcases h with h | h | h | ⟨stat, hs, hd⟩
    · simp [diffOne, h]
    · simp [diffOne, h]
    · cases hb : (!(fs idx.pathName).pathOk || !(fs idx.pathName).pathExists) <;>
        simp [diffOne, hb, h]
    · cases hb : (!(fs idx.pathName).pathOk || !(fs idx.pathName).pathExists) <;>
        simp [diffOne, hb, hs, hd]
  refine ⟨hone, fun entries => ⟨rfl, fun hmem => ⟨_, rfl, ?_⟩⟩, fun e => rfl⟩
  rw [mem_sortDiffs]
  exact List.mem_filterMap.mpr ⟨idx, hmem, hone⟩

/-- Witness for C5 at a concrete input: the absent file yields the
deleted-style diff and `DiffFiles` returns it under `ok`. -/
theorem diffFiles_deleted_witness :
    diffOne c5Fs c5Entry
      = some ⟨strBytes "foo", ⟨7, ModeBlob⟩, emptyTreeEntry, 4, 0⟩
    ∧ ∃ ds, DiffFiles c5Fs (.ok [c5Entry]) = .ok ds
        ∧ (⟨strBytes "foo", ⟨7, ModeBlob⟩, emptyTreeEntry, 4, 0⟩ : HashDiff) ∈ ds := by
  have h := diffFiles_deleted c5Fs c5Entry (Or.inr (Or.inl rfl))
  exact ⟨h.1, (h.2.1 [c5Entry]).2 (List.mem_singleton.mpr rfl)⟩

/-- C6: `R.Matches(P)` holds iff `R.Name = P` or `R.Name` ends with
`"/" + P` — i.e. some text followed by `'/'` followed by `P` — and
nothing else: no glob or regex expansion takes place. -/
theorem Ref_Matches_iff (r : Ref) (p : List Char) :
    r.Matches p = true ↔ r.name = p ∨ ∃ pre, pre ++ '/' :: p = r.name := by
  unfold Ref.Matches
  simp [List.isSuffixOf_iff_suffix, List.IsSuffix]

/-- C10 counterexample: for the refspec `"a\0"` (which already ends in
a NUL), appending one more trailing NUL changes which ref file is read
(`"a\0"` instead of `"a"`), contrary to the claim. -/
theorem refSpec_trailing_cex :
    ¬ (RefSpec.FileOf ['g'] (['a', nulChar] ++ [nulChar])
        = RefSpec.FileOf ['g'] ['a', nulChar]) := by decide

/-- Trailing whitespace is absorbed by `trimSpace`. -/
theorem trimSpace_concat_space (r : List Char) (c : Char) (hc : isSpaceChar c = true) :
    trimSpace (r ++ [c]) = trimSpace r := by
  unfold trimSpace
  rw [List.reverse_append, List.reverse_singleton, List.singleton_append,
    List.dropWhile_cons_of_pos hc]

/-- A whitespace character is not the NUL character. -/
theorem isSpaceChar_ne_nul (c : Char) (hc : isSpaceChar c = true) : c ≠ nulChar := by
  intro h
  subst h
  revert hc
  decide

/-- C10 (amended): `r.String()` is the underlying string with at most
one trailing NUL removed and then whitespace trimmed, the empty refspec
yields the empty string, and `RefSpec.File` is addressed by exactly this
normalized name; consequently, for a refspec whose raw string does not
already end in a NUL byte, appending a trailing NUL or a trailing
whitespace character does not change which ref file is read.  (Without
that restriction the consequence fails: see the counterexample.) -/
theorem refSpec_trailing (gd : List Char) (r : RefSpec)
    (h : r.getLast? ≠ some nulChar) :
    RefSpec.toStr r = trimSpace (trimSuffixNul r)
    ∧ RefSpec.toStr ([] : RefSpec) = []
    ∧ RefSpec.FileOf gd r = gd ++ '/' :: RefSpec.toStr r
    ∧ RefSpec.FileOf gd (r ++ [nulChar]) = RefSpec.FileOf gd r
    ∧ (∀ c, isSpaceChar c = true → RefSpec.FileOf gd (r ++ [c]) = RefSpec.FileOf gd r) := by
  have hstr : ∀ s : RefSpec, RefSpec.toStr s = trimSpace (trimSuffixNul s) := by
    intro s
    cases s with
    | nil => rfl
    | cons a t => simp [RefSpec.toStr]
  have htrim : trimSuffixNul r = r := by
    unfold trimSuffixNul
    simp [h]
  refine ⟨hstr r, rfl, rfl, ?_, ?_⟩
  · unfold RefSpec.FileOf
    rw [hstr (r ++ [nulChar]), hstr r, htrim]
    unfold trimSuffixNul
    rw [List.getLast?_concat]
    simp
  · intro c hc
    unfold RefSpec.FileOf
    rw [hstr (r ++ [c]), hstr r, htrim]
    have : trimSuffixNul (r ++ [c]) = r ++ [c] := by
      unfold trimSuffixNul
      rw [List.getLast?_concat]
      simp [isSpaceChar_ne_nul c hc]
    rw [this, trimSpace_concat_space r c hc]

/-- Witness for the amended C10 at a concrete input: for the refspec
`"a"`, appending a trailing NUL or a trailing space leaves the ref file
unchanged. -/
theorem refSpec_trailing_witness :
    RefSpec.FileOf ['g'] (['a'] ++ [nulChar]) = RefSpec.FileOf ['g'] ['a']
    ∧ RefSpec.FileOf ['g'] (['a'] ++ [' ']) = RefSpec.FileOf ['g'] ['a'] := by
  have h := refSpec_trailing ['g'] ['a'] (by decide)
  exact ⟨h.2.2.2.1, h.2.2.2.2 ' ' (by decide)⟩

/-! ## Claim theorems: `ShowRef` -/

/-- If some pattern of the list has no existing ref file, the `Verify`
scan ends in an error, whatever the accumulator. -/
theorem verifyRefs_missing (env : RefEnv) (deref : Bool) (ps : List (List Char))
    (h : ∃ p ∈ ps, env.fileExists p = false) :
    ∀ vals, ∃ e, verifyRefs env deref ps vals = .error e := by
  induction ps with
  | nil =>
    rcases h with ⟨p, hp, _⟩
    exact absurd hp (List.not_mem_nil p)
  | cons q qs ih =>
    intro vals
    cases hq : env.fileExists q with
    | false =>
      exact ⟨"fatal: '" ++ String.mk q ++ "' - not a valid ref", by simp [verifyRefs, hq]⟩
    | true =>
      have h' : ∃ p ∈ qs, env.fileExists p = false := by
        rcases h with ⟨p, hp, hf⟩
        rcases List.mem_cons.mp hp with rfl | hmem
        · rw [hq] at hf; cases hf
        · exact ⟨p, hmem, hf⟩
      cases hpr : env.parseRef q with
      | error e => exact ⟨e, by simp [verifyRefs, hq, hpr]⟩
      | ok r =>
        cases hd : getDeref env deref r with
        | error e => exact ⟨e, by simp [verifyRefs, hq, hpr, hd]⟩
        | ok od =>
          cases od with
          | none =>
            rcases ih h' (vals ++ [r]) with ⟨e, he⟩
            exact ⟨e, by simp [verifyRefs, hq, hpr, hd, he]⟩
          | some d =>
            rcases ih h' (vals ++ [r, d]) with ⟨e, he⟩
            exact ⟨e, by simp [verifyRefs, hq, hpr, hd, he]⟩

/-- C7: with the `Verify` option set, if any pattern does not exactly
name an existing ref file under the gitdir, `ShowRef` returns an error
and no refs.  Patterns are consulted only through `fileExists` on the
exact pattern, never through `Ref.Matches`, so no suffix matching
happens in this mode. -/
theorem showRef_verify_missing (env : RefEnv) (opts : ShowRefOptions)
    (patterns : List (List Char))
    (hv : opts.Verify = true)
    (h : ∃ p ∈ patterns, env.fileExists p = false) :
    ∃ e, ShowRef env opts patterns = .error e := by
  rcases verifyRefs_missing env opts.Dereference patterns h [] with ⟨e, he⟩
  exact ⟨e, by simp [ShowRef, hv, he]⟩

/-- Witness for C7 at a concrete input: verifying the single pattern
`"a"` against a repository with no ref files errors out. -/
theorem showRef_verify_missing_witness :
    ∃ e, ShowRef c7Env c7Opts [['a']] = .error e :=
  showRef_verify_missing c7Env c7Opts [['a']] rfl
    ⟨['a'], List.mem_singleton.mpr rfl, rfl⟩

/-- `appendRef` with a longer accumulator appends to its result. -/
theorem appendRef_append (env : RefEnv) (deref : Bool) (r : Ref) (pre vals : List Ref) :
    appendRef env deref (pre ++ vals) r
      = (appendRef env deref vals r).map (fun l => pre ++ l) := by
  unfold appendRef
  cases hd : getDeref env deref r with
  | error e => simp [Except.map]
  | ok od => cases od <;> simp [Except.map]

/-- `enumOne` with a longer accumulator appends to its result. -/
theorem enumOne_append (env : RefEnv) (deref : Bool) (pats : List (List Char))
    (f : List Char) (pre vals : List Ref) :
    enumOne env deref pats (pre ++ vals) f
      = (enumOne env deref pats vals f).map (fun l => pre ++ l) := by
  unfold enumOne
  cases hpr : env.parseRef f with
  | error e => simp [Except.map]
  | ok r =>
    by_cases hpat : pats.isEmpty <;>
      by_cases hm : pats.any (fun p => r.Matches p) <;>
        simp [hpat, hm, appendRef_append, Except.map]

/-- `enumAll` with a longer accumulator appends to its result. -/
theorem enumAll_append (env : RefEnv) (deref : Bool) (pats : List (List Char))
    (fs : List (List Char)) :
    ∀ pre vals, enumAll env deref pats fs (pre ++ vals)
      = (enumAll env deref pats fs vals).map (fun l => pre ++ l) := by
  induction fs with
  | nil => intro pre vals; rfl
  | cons f fs ih =>
    intro pre vals
    unfold enumAll
    rw [enumOne_append]
    cases he : enumOne env deref pats vals f with
    | error e => simp [Except.map]
    | ok vals' => simp [Except.map, ih pre vals']

/-- `showRefEnum` with a longer accumulator appends to its result. -/
theorem showRefEnum_append (env : RefEnv) (opts : ShowRefOptions)
    (pats : List (List Char)) (pre vals : List Ref) :
    showRefEnum env opts pats (pre ++ vals)
      = (showRefEnum env opts pats vals).map (fun l => pre ++ l) := by
  unfold showRefEnum
  cases hw : (!opts.Heads && !opts.Tags) with
  | true => simp [enumAll_append]
  | false =>
    cases hh : opts.Heads with
    | false =>
      cases ht : opts.Tags with
      | false => rw [hh, ht] at hw; simp at hw
      | true =>
        cases htag : env.tagsDir with
        | error e => simp [hh, ht, htag, Except.map]
        | ok names => simp [hh, ht, htag, Except.map, enumAll_append]
    | true =>
      cases hd : env.headsDir with
      | error e => simp [hh, hd, Except.map]
      | ok names =>
        cases hr : enumAll env opts.Dereference pats (headsRefNames names) vals with
        | error e => simp [hh, hd, enumAll_append, hr, Except.map]
        | ok v' =>
          cases ht : opts.Tags with
          | false => simp [hh, hd, enumAll_append, hr, ht, Except.map]
          | true =>
            cases htag : env.tagsDir with
            | error e => simp [hh, hd, enumAll_append, hr, ht, htag, Except.map]
            | ok tn => simp [hh, hd, enumAll_append, hr, ht, htag, Except.map]

/-- C8: with `Verify` unset and `IncludeHead` set, a HEAD that does not
resolve to a commit is silently omitted — the result is exactly that of
the same call without `IncludeHead` — and when HEAD does resolve, the
HEAD ref is prepended to that same enumeration. -/
theorem showRef_includeHead (env : RefEnv) (opts : ShowRefOptions)
    (pats : List (List Char))
    (hv : opts.Verify = false) (hih : opts.IncludeHead = true) :
    (∀ e, env.headCommit = .error e →
        ShowRef env opts pats
          = ShowRef env { opts with IncludeHead := false } pats)
    ∧ (∀ h, env.headCommit = .ok h →
        ShowRef env opts pats
          = (ShowRef env { opts with IncludeHead := false } pats).map
              (fun l => (⟨"HEAD".data, h⟩ : Ref) :: l)) := by
  constructor
  · intro e he
    simp [ShowRef, hv, hih, he, showRefEnum]
  · intro h he
    have happ := showRefEnum_append env opts pats [(⟨"HEAD".data, h⟩ : Ref)] []
    simp only [List.append_nil] at happ
    simp [ShowRef, hv, hih, he, showRefEnum] at happ ⊢
    exact happ

/-- Witness for C8 at concrete inputs: with a resolving HEAD the HEAD
ref is prepended; with a dangling HEAD the result equals the run
without `IncludeHead`. -/
theorem showRef_includeHead_witness :
    (ShowRef c8Env c8Opts []
      = (ShowRef c8Env { c8Opts with IncludeHead := false } []).map
          (fun l => (⟨"HEAD".data, 9⟩ : Ref) :: l))
    ∧ ShowRef c8EnvBad c8Opts []
        = ShowRef c8EnvBad { c8Opts with IncludeHead := false } [] :=
  ⟨(showRef_includeHead c8Env c8Opts [] rfl rfl).2 9 rfl,
   (showRef_includeHead c8EnvBad c8Opts [] rfl rfl).1 "dangling HEAD" rfl⟩

/-! ## Claim theorems: commit builder -/

/-- Gathered message arguments contribute no parents: they are consumed
as `-m`/`-F` pairs by the commit-tree argument scan. -/
theorem parentsOf_msgs (args : List String) :
    ∀ ms, gatherMsgs args = some ms →
      ∀ tl, parentsOf (ms ++ tl) = parentsOf tl := by
  induction args with
  | nil =>
    intro ms h tl
    simp [gatherMsgs] at h
    subst h
    rfl
  | cons v rest ih =>
    intro ms h tl
    by_cases hf : v = "-m" ∨ v = "-F"
    · cases rest with
      | nil =>
        rcases hf with hf | hf <;> subst hf <;> simp [gatherMsgs] at h
      | cons w rest' =>
        have hdef : gatherMsgs (v :: w :: rest')
            = (gatherMsgs (w :: rest')).map (fun l => v :: w :: l) := by
          rcases hf with hf | hf <;> subst hf <;> rfl
        rw [hdef] at h
        cases hg : gatherMsgs (w :: rest') with
        | none => rw [hg] at h; simp at h
        | some ms' =>
          rw [hg] at h
          simp at h
          subst h
          have hcons : parentsOf (v :: w :: (ms' ++ tl)) = parentsOf (ms' ++ tl) := by
            rcases hf with hf | hf <;> subst hf <;> simp [parentsOf]
          rw [List.cons_append, List.cons_append, hcons, ih ms' hg tl]
    · have hdef : gatherMsgs (v :: rest) = gatherMsgs rest := by
        simp only [gatherMsgs, if_neg hf]
      rw [hdef] at h
      exact ih ms h tl

/-- C9: `Commit` resolves HEAD before building the commit; the argument
list it hands to the commit-tree step records exactly the resolved HEAD
as the sole parent when HEAD resolves, and no parent at all when it does
not — never more than one parent. -/
theorem Commit_parents (headId : Except String String) (args : List String)
    (treeSha : String) (cta : List String)
    (hc : commitTreeArgsOf headId args treeSha = some cta) :
    parentsOf cta = headParents headId ∧ (parentsOf cta).length ≤ 1 := by
  cases headId with
  | error e =>
    unfold commitTreeArgsOf at hc
    cases hg : gatherMsgs args with
    | none => rw [hg] at hc; simp at hc
    | some ms =>
      rw [hg] at hc
      simp at hc
      subst hc
      rw [parentsOf_msgs args ms hg [treeSha]]
      exact ⟨rfl, by simp [parentsOf]⟩
  | ok p =>
    unfold commitTreeArgsOf at hc
    cases hg : gatherMsgs args with
    | none => rw [hg] at hc; simp at hc
    | some ms =>
      rw [hg] at hc
      simp at hc
      subst hc
      have hstep : parentsOf ("-p" :: p :: (ms ++ [treeSha]))
          = p :: parentsOf (ms ++ [treeSha]) := by
        simp [parentsOf]
      rw [hstep, parentsOf_msgs args ms hg [treeSha]]
      exact ⟨rfl, by simp [parentsOf]⟩

/-- Witness for C9 at a concrete input: committing with HEAD resolved
to `c0ffee` and one `-m` message records exactly that single parent. -/
theorem Commit_parents_witness :
    parentsOf ["-p", "c0ffee", "-m", "msg", "t"] = headParents (.ok "c0ffee")
    ∧ (parentsOf ["-p", "c0ffee", "-m", "msg", "t"]).length ≤ 1 :=
  Commit_parents (.ok "c0ffee") ["-m", "msg"] "t" _ rfl

end DGit
